import Mathlib

/-!
# Verification of the dense matrix-multiplication kernels

Shallow embedding of the four matrix-multiplication kernels of
`concurrency-examples/src/lib.rs`:

* `matrix_multiply`            (scalar triple loop, lines 71-91)
* `matrix_multiply_rayon`      (row-partitioned via `par_chunks_mut`, lines 93-110)
* `matrix_multiply_avx`        (8-lane vectorized, lines 113-149)
* `matrix_multiply_avx_rayon`  (vectorized + row-partitioned, lines 153-191)

The kernels operate on `f32` buffers.  They are embedded generically over an
abstract arithmetic `Ops α` (a zero, an addition and a multiplication, with no
algebraic laws assumed): IEEE-754 single-precision arithmetic is one instance,
so every theorem proved for arbitrary `Ops α` holds in particular for the real
floating-point semantics.  Exact integer arithmetic (`intOps`) is another
instance; on inputs and intermediate values that are exactly representable in
single precision, `f32` arithmetic is exact and coincides with it, which is
what the concrete test-vector theorems rely on.

Buffers are `List α`.  Every indexed access of the Rust code is modelled by a
bounds-checked operation in the `Option` monad: `none` models a Rust panic
(out-of-bounds index / slice, or rayon's `par_chunks_mut` asserting a nonzero
chunk size).
-/

set_option maxHeartbeats 1000000

/-- Abstract single-precision arithmetic: the operations the kernels use on
`f32` (the literal `0.0`, `+` and `*`), with no laws assumed. -/
structure Ops (α : Type) where
  zero : α
  add : α → α → α
  mul : α → α → α

/-- Exact integer arithmetic: the instance of `Ops` used for concrete test
vectors whose values (and all intermediate values) are exactly representable
in `f32`, where IEEE-754 single-precision arithmetic is exact. -/
def intOps : Ops Int where
  zero := 0
  add := (· + ·)
  mul := (· * ·)

/-- `a[i]` on a Rust slice: `none` models the out-of-bounds panic. -/
def readChecked (l : List α) (i : Nat) : Option α := l[i]?

/-- `l[i] = v` on a Rust slice: `none` models the out-of-bounds panic. -/
def setChecked (l : List α) (i : Nat) (v : α) : Option (List α) :=
  if i < l.length then some (l.set i v) else none

/-- `&l[s..s+len]` on a Rust slice: `none` models the out-of-bounds panic. -/
def sliceChecked (l : List α) (s len : Nat) : Option (List α) :=
  if s + len ≤ l.length then some ((l.drop s).take len) else none

/-- Overwrite the region `[s, s + vs.length)` of `l` with `vs`
(the in-bounds meaning of `l[s..s+vs.length].copy_from_slice(vs)`). -/
def writeRange (l : List α) (s : Nat) (vs : List α) : List α :=
  l.take s ++ vs ++ l.drop (s + vs.length)

/-- `l[s..s+vs.length].copy_from_slice(vs)`: `none` models the panic when the
destination slice would run past the end of the buffer. -/
def writeSlice (l : List α) (s : Nat) (vs : List α) : Option (List α) :=
  if s + vs.length ≤ l.length then some (writeRange l s vs) else none

/-- Fuelled worker for `chunksMut` (structural recursion so that concrete
instances reduce definitionally). -/
def chunksGo (fuel p : Nat) (l : List α) : List (List α) :=
  match fuel, l with
  | 0, _ => []
  | _ + 1, [] => []
  | fuel + 1, x :: xs => (x :: xs).take p :: chunksGo fuel p ((x :: xs).drop p)

/-- `slice.chunks_mut(p)` / rayon's `par_chunks_mut(p)` as the list of chunks,
for `p > 0` (the `p = 0` assertion of rayon is modelled at the call site):
consecutive chunks of length `p`, the last one possibly shorter.  The fuel
`l.length` suffices because each step removes at least one element. -/
def chunksMut (p : Nat) (l : List α) : List (List α) := chunksGo l.length p l

/-- The inner dot-product loop `for k in 0..n { sum += a[i*n+k] * b[k*p+j]; }`
of `matrix_multiply` (lines 81-83) and of the `matrix_multiply_rayon` worker
(lines 102-104), started from `sum = 0.0`. -/
def dotLoop (o : Ops α) (a b : List α) (i j n p : Nat) : Option α :=
  (List.range n).foldlM
    (fun sum k => do
      let x ← readChecked a (i * n + k)
      let y ← readChecked b (k * p + j)
      pure (o.add sum (o.mul x y)))
    o.zero

/-- The column loop `for j in 0..p { let mut sum = 0.0; ...; result[base+j] = sum; }`
shared by `matrix_multiply` (writing at base `i*p`, lines 77-87) and by the
`matrix_multiply_rayon` row worker (writing at base `0` of its row chunk,
lines 100-106). -/
def scalarRowLoop (o : Ops α) (a b : List α) (i n p s : Nat) (result : List α) :
    Option (List α) :=
  (List.range p).foldlM
    (fun result j => do
      let sum ← dotLoop o a b i j n p
      setChecked result (s + j) sum)
    result

/-- `matrix_multiply` (lib.rs lines 71-91): allocate `m*p` zeros, then for each
row `i` run the scalar column loop writing at base `i*p`. -/
def matrix_multiply (o : Ops α) (a b : List α) (m n p : Nat) : Option (List α) :=
  let result := List.replicate (m * p) o.zero
  (List.range m).foldlM (fun result i => scalarRowLoop o a b i n p (i * p) result) result

/-- `matrix_multiply_rayon` (lib.rs lines 93-110): allocate `m*p` zeros, split
into row chunks of size `p` (`par_chunks_mut(p)` asserts `p ≠ 0`, modelled by
the leading `none` branch), run the scalar column loop on each chunk at base
`0`, and reassemble.  The parallel dispatch is modelled sequentially; schedule
independence is proved separately via `rayonScheduled`. -/
def matrix_multiply_rayon (o : Ops α) (a b : List α) (m n p : Nat) : Option (List α) :=
  let result := List.replicate (m * p) o.zero
  if p = 0 then none
  else do
    let rows ← (chunksMut p result).enum.mapM (fun ic => scalarRowLoop o a b ic.1 n p 0 ic.2)
    pure rows.flatten

/-- One iteration of the vectorized column loop (lib.rs lines 124-144 and
166-186): at column-chunk start `j`, with `remaining = min (p - j) 8`, load
`b[k*p+j .. k*p+j+remaining]` zero-padded to 8 lanes, load the current result
lanes `result[s+j .. s+j+remaining]` zero-padded to 8 lanes, multiply-accumulate
all 8 lanes with the broadcast `a_elem`, and store the first `remaining` lanes
back at `s+j`.  `s` is the row base: `i*p` in `matrix_multiply_avx`, `0` in the
row worker of `matrix_multiply_avx_rayon`. -/
def avxChunkBody (o : Ops α) (a_elem : α) (b : List α) (k p s j : Nat)
    (result : List α) : Option (List α) := do
  let remaining := min (p - j) 8
  let bs ← sliceChecked b (k * p + j) remaining
  let padded_chunk := bs ++ List.replicate (8 - remaining) o.zero
  let rs ← sliceChecked result (s + j) remaining
  let result_tmp := rs ++ List.replicate (8 - remaining) o.zero
  let result_chunk := List.zipWith (fun rr bb => o.add rr (o.mul a_elem bb)) result_tmp padded_chunk
  writeSlice result (s + j) (result_chunk.take remaining)

/-- The `for k in 0..n { let a_elem = a[i*n+k]; for j in (0..p).step_by(8) { ... } }`
nest shared by `matrix_multiply_avx` (row base `s = i*p`, lines 119-145) and by
the row worker of `matrix_multiply_avx_rayon` (row base `s = 0`, lines 161-187).
`(0..p).step_by(8)` visits `j = 0, 8, ...`, i.e. `List.range' 0 ((p+7)/8) 8`. -/
def avxRowK (o : Ops α) (a b : List α) (i n p s : Nat) (result : List α) :
    Option (List α) :=
  (List.range n).foldlM
    (fun result k => do
      let a_elem ← readChecked a (i * n + k)
      (List.range' 0 ((p + 7) / 8) 8).foldlM
        (fun result j => avxChunkBody o a_elem b k p s j result) result)
    result

/-- `matrix_multiply_avx` (lib.rs lines 113-149): allocate `m*p` zeros, then
for each row `i` run the vectorized `(k, j)` nest at row base `i*p`. -/
def matrix_multiply_avx (o : Ops α) (a b : List α) (m n p : Nat) : Option (List α) :=
  let result := List.replicate (m * p) o.zero
  (List.range m).foldlM (fun result i => avxRowK o a b i n p (i * p) result) result

/-- `matrix_multiply_avx_rayon` (lib.rs lines 153-191): like
`matrix_multiply_rayon` but each row chunk is processed by the vectorized
`(k, j)` nest at row base `0`. -/
def matrix_multiply_avx_rayon (o : Ops α) (a b : List α) (m n p : Nat) : Option (List α) :=
  let result := List.replicate (m * p) o.zero
  if p = 0 then none
  else do
    let rows ← (chunksMut p result).enum.mapM (fun ic => avxRowK o a b ic.1 n p 0 ic.2)
    pure rows.flatten

/-- Model of rayon executing the row workers of `matrix_multiply_rayon` in an
arbitrary order: each worker `i` in `order` computes its row on its own zeroed
chunk (the chunks of the zero-initialized output are all `replicate p zero`)
and stores it into its disjoint region `[i*p, i*p+p)` of the output.  A list
`order` that is a permutation of `range m` represents one possible complete
schedule of the `m` disjoint row tasks across any number of workers. -/
def rayonScheduled (o : Ops α) (a b : List α) (m n p : Nat) (order : List Nat) :
    Option (List α) :=
  let result := List.replicate (m * p) o.zero
  if p = 0 then none
  else
    order.foldlM
      (fun buf i => do
        let row ← scalarRowLoop o a b i n p 0 (List.replicate p o.zero)
        writeSlice buf (i * p) row)
      result

/-- Model of rayon executing the row workers of `matrix_multiply_avx_rayon`
in an arbitrary order (see `rayonScheduled`). -/
def avxRayonScheduled (o : Ops α) (a b : List α) (m n p : Nat) (order : List Nat) :
    Option (List α) :=
  let result := List.replicate (m * p) o.zero
  if p = 0 then none
  else
    order.foldlM
      (fun buf i => do
        let row ← avxRowK o a b i n p 0 (List.replicate p o.zero)
        writeSlice buf (i * p) row)
      result

/-- Two successive calls of a kernel on the same (immutable) inputs: the
kernels take shared borrows and keep no state, so the second call sees exactly
the same arguments as the first. -/
def callTwice (f : List α → List α → Nat → Nat → Nat → Option (List α))
    (a b : List α) (m n p : Nat) : Option (List α) × Option (List α) :=
  (f a b m n p, f a b m n p)

/-- Spec-side dot product (spec §4.1): the `k`-ascending fold
`Σ_{k=0}^{n-1} a[i·n+k] · b[k·p+j]` started from zero. -/
def specDot (o : Ops α) (a b : List α) (i j n p : Nat) : α :=
  (List.range n).foldl
    (fun sum k => o.add sum (o.mul (a.getD (i * n + k) o.zero) (b.getD (k * p + j) o.zero)))
    o.zero

/-- Spec-side row `i` of the result: `[specDot i 0, ..., specDot i (p-1)]`. -/
def specRow (o : Ops α) (a b : List α) (n p i : Nat) : List α :=
  (List.range p).map (fun j => specDot o a b i j n p)

/-- Spec-side result matrix: the `m` rows concatenated in row-major order. -/
def specMatMul (o : Ops α) (a b : List α) (m n p : Nat) : List α :=
  ((List.range m).map (fun i => specRow o a b n p i)).flatten

/-! ## Basic lemmas about the buffer primitives -/

theorem writeRange_length {l vs : List α} {s : Nat} (h : s + vs.length ≤ l.length) :
    (writeRange l s vs).length = l.length := by
  simp only [writeRange, List.length_append, List.length_take, List.length_drop]
  omega

theorem getElem?_writeRange {l vs : List α} {s : Nat} (h : s + vs.length ≤ l.length) (t : Nat) :
    (writeRange l s vs)[t]? = if s ≤ t ∧ t < s + vs.length then vs[t - s]? else l[t]? := by
  have hts : (l.take s).length = s := by
    simp only [List.length_take]; omega
  have hts2 : (l.take s ++ vs).length = s + vs.length := by
    simp only [List.length_append, hts]
  show (l.take s ++ vs ++ l.drop (s + vs.length))[t]? = _
  by_cases h2 : t < s + vs.length
  · rw [List.getElem?_append_left (by rw [hts2]; exact h2)]
    by_cases h1 : t < s
    · rw [List.getElem?_append_left (by rw [hts]; exact h1)]
      rw [if_neg (by omega)]
      exact List.getElem?_take_of_lt h1
    · rw [List.getElem?_append_right (by rw [hts]; omega), hts]
      rw [if_pos ⟨by omega, h2⟩]
  · rw [List.getElem?_append_right (by rw [hts2]; omega), hts2]
    rw [List.getElem?_drop]
    rw [if_neg (by omega)]
    congr 1
    omega

theorem getD_of_getElem? {l : List α} {t : Nat} {v z : α} (h : l[t]? = some v) :
    l.getD t z = v := by
  rw [List.getD_eq_getElem?_getD, h]
  rfl

theorem sliceChecked_spec (z : α) {l : List α} {s len : Nat} (h : s + len ≤ l.length) :
    sliceChecked l s len = some ((List.range len).map (fun d => l.getD (s + d) z)) := by
  unfold sliceChecked
  rw [if_pos h]
  congr 1
  apply List.ext_getElem?
  intro d
  by_cases hd : d < len
  · rw [List.getElem?_take_of_lt hd, List.getElem?_drop, List.getElem?_map,
      List.getElem?_range hd]
    have hsd : s + d < l.length := by omega
    rw [List.getElem?_eq_getElem hsd]
    simp only [Option.map_some']
    congr 1
    rw [List.getD_eq_getElem?_getD, List.getElem?_eq_getElem hsd]
    rfl
  · rw [List.getElem?_eq_none, List.getElem?_eq_none]
    · simp only [List.length_map, List.length_range]; omega
    · simp only [List.length_take, List.length_drop]; omega

theorem zipWith_map_same {β : Type} (f : α → α → β) (g h : Nat → α) (l : List Nat) :
    List.zipWith f (l.map g) (l.map h) = l.map (fun x => f (g x) (h x)) := by
  rw [List.zipWith_map, List.zipWith_same]

/-- The half-open interval `[i*p, i*p+p)` is exactly the set of `t` with
`t / p = i` (for `p > 0`). -/
theorem div_eq_iff_region {p : Nat} (hp : 0 < p) (i t : Nat) :
    t / p = i ↔ i * p ≤ t ∧ t < i * p + p := by
  constructor
  · intro h
    have h1 := Nat.div_mul_le_self t p
    have h2 := Nat.div_add_mod t p
    have h3 := Nat.mod_lt t hp
    rw [h] at h1
    constructor
    · exact h1
    · have h4 : p * i + t % p = t := by rw [← h]; exact h2
      have h5 : p * i = i * p := Nat.mul_comm p i
      omega
  · intro ⟨h1, h2⟩
    exact Nat.div_eq_of_lt_le (by omega) (by rw [Nat.succ_mul]; omega)

theorem mod_eq_sub_of_region {p i t : Nat} (hp : 0 < p) (h1 : i * p ≤ t)
    (h2 : t < i * p + p) : t % p = t - i * p := by
  have hd : t / p = i := (div_eq_iff_region hp i t).mpr ⟨h1, h2⟩
  have h3 := Nat.div_add_mod t p
  rw [hd] at h3
  have : p * i = i * p := Nat.mul_comm p i
  omega

/-! ## Generic lemmas for the `Option`-monadic loops -/

/-- A `foldlM` in `Option` all of whose steps succeed computes the
corresponding pure `foldl`, preserving an invariant `P` of the state. -/
theorem foldlM_eq_foldl_of_some {σ β : Type} (P : σ → Prop) {f : σ → β → Option σ}
    {g : σ → β → σ} :
    ∀ (l : List β) (s0 : σ), P s0 →
    (∀ s x, x ∈ l → P s → f s x = some (g s x) ∧ P (g s x)) →
    l.foldlM f s0 = some (l.foldl g s0) ∧ P (l.foldl g s0)
  | [], s0, h0, _ => by
    simp only [List.foldlM_nil, List.foldl_nil]
    exact ⟨rfl, h0⟩
  | x :: xs, s0, h0, hstep => by
    have hx := hstep s0 x (by simp) h0
    rw [List.foldlM_cons, hx.1, List.foldl_cons]
    have := foldlM_eq_foldl_of_some P xs (g s0 x) hx.2
      (fun s y hy hP => hstep s y (List.mem_cons_of_mem _ hy) hP)
    simpa using this

/-- A `mapM` in `Option` all of whose steps succeed computes the
corresponding pure `map`. -/
theorem mapM'_eq_map_of_some {β γ : Type} {f : β → Option γ} {g : β → γ} :
    ∀ (l : List β), (∀ x ∈ l, f x = some (g x)) → List.mapM' f l = some (l.map g)
  | [], _ => rfl
  | x :: xs, h => by
    have ih := mapM'_eq_map_of_some xs (fun y hy => h y (List.mem_cons_of_mem _ hy))
    rw [List.mapM'_cons]
    rw [h x (by simp), ih]
    rfl

theorem mapM_eq_map_of_some {β γ : Type} {f : β → Option γ} {g : β → γ}
    (l : List β) (h : ∀ x ∈ l, f x = some (g x)) : l.mapM f = some (l.map g) := by
  rw [← List.mapM'_eq_mapM]
  exact mapM'_eq_map_of_some l h

/-! ## The scalar inner loops -/

theorem dotLoop_eq_specDot (o : Ops α) {a b : List α} {i j n p : Nat}
    (ha : i * n + n ≤ a.length) (hb : n * p ≤ b.length) (hj : j < p) :
    dotLoop o a b i j n p = some (specDot o a b i j n p) := by
  unfold dotLoop specDot
  refine (foldlM_eq_foldl_of_some (fun _ => True) (List.range n) o.zero trivial ?_).1
  intro s k hk _
  refine ⟨?_, trivial⟩
  have hk' : k < n := List.mem_range.mp hk
  have h1 : i * n + k < a.length := by omega
  have h2 : k * p + j < b.length := by
    have h3 : (k + 1) * p ≤ n * p := Nat.mul_le_mul_right p (by omega)
    have h4 : (k + 1) * p = k * p + p := by ring
    omega
  simp only [readChecked, List.getElem?_eq_getElem h1, List.getElem?_eq_getElem h2,
    Option.some_bind, Option.bind_some]
  simp only [List.getD_eq_getElem?_getD, List.getElem?_eq_getElem h1,
    List.getElem?_eq_getElem h2]
  rfl

/-- Pure characterization of a loop that sets positions `s+0, ..., s+q-1`. -/
theorem foldl_set_range (d : Nat → α) (s : Nat) :
    ∀ (q : Nat) (r : List α), s + q ≤ r.length →
    ((List.range q).foldl (fun acc j => acc.set (s + j) (d j)) r).length = r.length ∧
    ∀ t, ((List.range q).foldl (fun acc j => acc.set (s + j) (d j)) r)[t]? =
      if s ≤ t ∧ t < s + q then some (d (t - s)) else r[t]?
  | 0, r, _ => by
    refine ⟨by simp, fun t => ?_⟩
    simp only [List.range_zero, List.foldl_nil]
    rw [if_neg (by omega)]
  | q + 1, r, h => by
    have ih := foldl_set_range d s q r (by omega)
    rw [List.range_succ, List.foldl_append, List.foldl_cons, List.foldl_nil]
    set R := (List.range q).foldl (fun acc j => acc.set (s + j) (d j)) r with hR
    refine ⟨by rw [List.length_set]; exact ih.1, fun t => ?_⟩
    rw [List.getElem?_set]
    by_cases ht : s + q = t
    · rw [if_pos ht, if_pos (by rw [ih.1]; omega), if_pos (by omega)]
      have heq : t - s = q := by omega
      rw [heq]
    · rw [if_neg ht, ih.2 t]
      by_cases ht2 : s ≤ t ∧ t < s + q
      · rw [if_pos ht2, if_pos (by omega)]
      · rw [if_neg ht2, if_neg (by omega)]

theorem specRow_length (o : Ops α) (a b : List α) (n p i : Nat) :
    (specRow o a b n p i).length = p := by
  simp [specRow]

theorem getElem?_specRow (o : Ops α) (a b : List α) (n p i : Nat) {j : Nat} (hj : j < p) :
    (specRow o a b n p i)[j]? = some (specDot o a b i j n p) := by
  simp [specRow, List.getElem?_map, List.getElem?_range hj]

/-- The scalar column loop writes `specRow` into `[s, s+p)` and succeeds. -/
theorem scalarRowLoop_eq (o : Ops α) {a b : List α} {i n p s : Nat} {r : List α}
    (ha : i * n + n ≤ a.length) (hb : n * p ≤ b.length) (hr : s + p ≤ r.length) :
    scalarRowLoop o a b i n p s r = some (writeRange r s (specRow o a b n p i)) := by
  unfold scalarRowLoop
  have main := foldlM_eq_foldl_of_some (fun buf : List α => buf.length = r.length)
    (f := fun result j => do
      let sum ← dotLoop o a b i j n p
      setChecked result (s + j) sum)
    (g := fun result j => result.set (s + j) (specDot o a b i j n p))
    (List.range p) r rfl ?_
  · rw [main.1]
    congr 1
    have hchar := foldl_set_range (fun j => specDot o a b i j n p) s p r hr
    apply List.ext_getElem?
    intro t
    rw [hchar.2 t, getElem?_writeRange (by rw [specRow_length]; exact hr) t,
      specRow_length]
    by_cases ht : s ≤ t ∧ t < s + p
    · rw [if_pos ht, if_pos ht, getElem?_specRow o a b n p i (by omega)]
    · rw [if_neg ht, if_neg ht]
  · intro buf j hj hbuf
    have hj' : j < p := List.mem_range.mp hj
    constructor
    · show (do
        let sum ← dotLoop o a b i j n p
        setChecked buf (s + j) sum) = some (buf.set (s + j) (specDot o a b i j n p))
      rw [dotLoop_eq_specDot o ha hb hj']
      show setChecked buf (s + j) (specDot o a b i j n p) = _
      unfold setChecked
      rw [if_pos (by omega)]
    · simp only [List.length_set]
      exact hbuf

/-! ## The spec-side result matrix -/

theorem specMatMul_succ (o : Ops α) (a b : List α) (m n p : Nat) :
    specMatMul o a b (m + 1) n p = specMatMul o a b m n p ++ specRow o a b n p m := by
  unfold specMatMul
  rw [List.range_succ, List.map_append, List.flatten_append]
  simp

theorem specMatMul_length (o : Ops α) (a b : List α) :
    ∀ m n p, (specMatMul o a b m n p).length = m * p
  | 0, n, p => by simp [specMatMul]
  | m + 1, n, p => by
    rw [specMatMul_succ, List.length_append, specMatMul_length o a b m n p,
      specRow_length]
    ring

theorem getElem?_specMatMul (o : Ops α) (a b : List α) :
    ∀ m n p t, (specMatMul o a b m n p)[t]? =
      if t < m * p then some (specDot o a b (t / p) (t % p) n p) else none
  | 0, n, p, t => by simp [specMatMul]
  | m + 1, n, p, t => by
    have hmul : (m + 1) * p = m * p + p := by ring
    rw [specMatMul_succ]
    by_cases h1 : t < m * p
    · rw [List.getElem?_append_left (by rw [specMatMul_length]; exact h1),
        getElem?_specMatMul o a b m n p t, if_pos h1, if_pos (by omega)]
    · by_cases h2 : t < (m + 1) * p
      · have hp : 0 < p := by omega
        rw [List.getElem?_append_right (by rw [specMatMul_length]; omega),
          specMatMul_length, if_pos h2]
        have hdiv : t / p = m := (div_eq_iff_region hp m t).mpr ⟨by omega, by omega⟩
        have hmod : t % p = t - m * p := mod_eq_sub_of_region hp (by omega) (by omega)
        rw [getElem?_specRow o a b n p m (by omega), hdiv, hmod]
      · rw [List.getElem?_append_right (by rw [specMatMul_length]; omega), if_neg h2]
        apply List.getElem?_eq_none
        rw [specRow_length, specMatMul_length]
        omega

/-! ## Assembling disjoint row writes, in any order -/

/-- Writing per-row values `rows i` into the disjoint regions `[i*p, i*p+p)`
for the indices in `order`: the final buffer is determined pointwise,
independently of the order and multiplicity of the writes. -/
theorem foldl_writeRows_spec (m p : Nat) (rows : Nat → List α)
    (hlen : ∀ i, (rows i).length = p) :
    ∀ (order : List Nat) (init : List α), (∀ i ∈ order, i < m) → init.length = m * p →
    (order.foldl (fun r i => writeRange r (i * p) (rows i)) init).length = m * p ∧
    ∀ t, (order.foldl (fun r i => writeRange r (i * p) (rows i)) init)[t]? =
      if t / p ∈ order ∧ t < m * p then (rows (t / p))[t % p]? else init[t]?
  | [], init, _, hinit => by
    refine ⟨hinit, fun t => ?_⟩
    rw [if_neg (by simp)]
    rfl
  | i :: rest, init, hmem, hinit => by
    have him : i < m := hmem i (by simp)
    have hmuli : (i + 1) * p = i * p + p := by ring
    have hmulim : (i + 1) * p ≤ m * p := Nat.mul_le_mul_right p (by omega)
    have hbound : i * p + (rows i).length ≤ init.length := by
      rw [hlen i, hinit]; omega
    have hinit2 : (writeRange init (i * p) (rows i)).length = m * p := by
      rw [writeRange_length hbound, hinit]
    have ih := foldl_writeRows_spec m p rows hlen rest (writeRange init (i * p) (rows i))
      (fun x hx => hmem x (List.mem_cons_of_mem _ hx)) hinit2
    rw [List.foldl_cons]
    refine ⟨ih.1, fun t => ?_⟩
    rw [ih.2 t, getElem?_writeRange hbound t, hlen i]
    by_cases h1 : t / p ∈ rest ∧ t < m * p
    · rw [if_pos h1, if_pos ⟨List.mem_cons_of_mem _ h1.1, h1.2⟩]
    · rw [if_neg h1]
      by_cases h2 : i * p ≤ t ∧ t < i * p + p
      · have hp : 0 < p := by omega
        have hdiv : t / p = i := (div_eq_iff_region hp i t).mpr h2
        have hmod : t % p = t - i * p := mod_eq_sub_of_region hp h2.1 h2.2
        have htm : t < m * p := by omega
        rw [if_pos h2, if_pos ⟨by rw [hdiv]; exact List.mem_cons_self i rest, htm⟩,
          hdiv, hmod]
      · rw [if_neg h2, if_neg ?_]
        rintro ⟨hmem2, hlt⟩
        rcases List.mem_cons.mp hmem2 with he | hr
        · have hp : 0 < p := by
            rcases Nat.eq_zero_or_pos p with h0 | h0
            · subst h0; omega
            · exact h0
          exact h2 ((div_eq_iff_region hp i t).mp he)
        · exact h1 ⟨hr, hlt⟩

/-- The outer row loop of the sequential kernels: if each row computation
turns a buffer whose row-`i` region is still zero into the same buffer with
`rows i` written at `[i*p, i*p+p)`, then the whole loop succeeds and computes
the corresponding pure fold of disjoint row writes. -/
theorem outer_foldlM (z : α) (rowFun : List α → Nat → Option (List α))
    (rows : Nat → List α) (m p : Nat)
    (hlen : ∀ i, (rows i).length = p)
    (h : ∀ i, i < m → ∀ r : List α, r.length = m * p →
         (∀ j, j < p → r[i * p + j]? = some z) →
         rowFun r i = some (writeRange r (i * p) (rows i))) :
    (List.range m).foldlM rowFun (List.replicate (m * p) z)
      = some ((List.range m).foldl (fun r i => writeRange r (i * p) (rows i))
          (List.replicate (m * p) z)) := by
  suffices haux : ∀ u, u ≤ m → (List.range u).foldlM rowFun (List.replicate (m * p) z)
      = some ((List.range u).foldl (fun r i => writeRange r (i * p) (rows i))
          (List.replicate (m * p) z)) from haux m Nat.le.refl
  intro u
  induction u with
  | zero => intro _; rfl
  | succ u ih =>
    intro hu
    rw [List.range_succ, List.foldlM_append, ih (by omega), List.foldl_append,
      List.foldl_cons, List.foldl_nil]
    set R := (List.range u).foldl (fun r i => writeRange r (i * p) (rows i))
      (List.replicate (m * p) z) with hRdef
    have hspec := foldl_writeRows_spec m p rows hlen (List.range u) (List.replicate (m * p) z)
      (fun x hx => by have := List.mem_range.mp hx; omega) (by simp)
    have hmulu : (u + 1) * p = u * p + p := by ring
    have hmulum : (u + 1) * p ≤ m * p := Nat.mul_le_mul_right p (by omega)
    have hzero : ∀ j, j < p → R[u * p + j]? = some z := by
      intro j hj
      rw [hspec.2]
      have hp : 0 < p := by omega
      have hdiv : (u * p + j) / p = u := (div_eq_iff_region hp u _).mpr ⟨by omega, by omega⟩
      rw [if_neg (by rw [hdiv]; rintro ⟨hin, _⟩; exact absurd (List.mem_range.mp hin) (by omega))]
      exact List.getElem?_replicate_of_lt (by omega)
    show List.foldlM rowFun R [u] = _
    rw [List.foldlM_cons, h u (by omega) R hspec.1 hzero]
    rfl

/-! ## Characterization of the scalar kernel -/

/-- The pure fold of disjoint row writes over `range m`, started from the
zeroed buffer, is exactly the spec-side result matrix. -/
theorem foldl_writeRows_range_eq_spec (o : Ops α) (a b : List α) (m n p : Nat) :
    (List.range m).foldl (fun r i => writeRange r (i * p) (specRow o a b n p i))
      (List.replicate (m * p) o.zero) = specMatMul o a b m n p := by
  have hspec := foldl_writeRows_spec m p (fun i => specRow o a b n p i)
    (specRow_length o a b n p) (List.range m) (List.replicate (m * p) o.zero)
    (fun x hx => List.mem_range.mp hx) (by simp)
  apply List.ext_getElem?
  intro t
  rw [hspec.2 t, getElem?_specMatMul]
  by_cases h1 : t < m * p
  · have hp : 0 < p := by
      rcases Nat.eq_zero_or_pos p with h0 | h0
      · subst h0; omega
      · exact h0
    have hdivm : t / p < m := (Nat.div_lt_iff_lt_mul hp).mpr (by omega)
    rw [if_pos ⟨List.mem_range.mpr hdivm, h1⟩, if_pos h1,
      getElem?_specRow o a b n p (t / p) (Nat.mod_lt t hp)]
  · rw [if_neg (by rintro ⟨_, hc⟩; exact h1 hc), if_neg h1, List.getElem?_replicate,
      if_neg (by omega)]

theorem matrix_multiply_eq_spec (o : Ops α) {a b : List α} {m n p : Nat}
    (ha : m * n ≤ a.length) (hb : n * p ≤ b.length) :
    matrix_multiply o a b m n p = some (specMatMul o a b m n p) := by
  have hrow : ∀ i, i < m → ∀ r : List α, r.length = m * p →
      (∀ j, j < p → r[i * p + j]? = some o.zero) →
      scalarRowLoop o a b i n p (i * p) r
        = some (writeRange r (i * p) (specRow o a b n p i)) := by
    intro i hi r hr _
    apply scalarRowLoop_eq o ?_ hb ?_
    · have h1 : (i + 1) * n ≤ m * n := Nat.mul_le_mul_right n (by omega)
      have h2 : (i + 1) * n = i * n + n := by ring
      omega
    · rw [hr]
      have h1 : (i + 1) * p ≤ m * p := Nat.mul_le_mul_right p (by omega)
      have h2 : (i + 1) * p = i * p + p := by ring
      omega
  show (List.range m).foldlM (fun result i => scalarRowLoop o a b i n p (i * p) result)
      (List.replicate (m * p) o.zero) = some (specMatMul o a b m n p)
  rw [outer_foldlM o.zero (fun result i => scalarRowLoop o a b i n p (i * p) result)
    (fun i => specRow o a b n p i) m p (specRow_length o a b n p) hrow,
    foldl_writeRows_range_eq_spec]

/-! ## Characterization of the vectorized kernel -/

/-- One vectorized column chunk succeeds and multiply-accumulates exactly the
lanes `[s+j, s+j+remaining)`, reading only `b[k*p+j .. k*p+j+remaining]`. -/
theorem avxChunkBody_spec (o : Ops α) (a_elem : α) {b R : List α} {k p s j L : Nat}
    (hR : R.length = L) (hsp : s + p ≤ L) (hj : j < p) (hbk : k * p + p ≤ b.length) :
    avxChunkBody o a_elem b k p s j R = some (writeRange R (s + j)
      ((List.range (min (p - j) 8)).map
        (fun d => o.add (R.getD (s + j + d) o.zero)
          (o.mul a_elem (b.getD (k * p + j + d) o.zero))))) := by
  have hrem : min (p - j) 8 ≤ p - j := Nat.min_le_left _ _
  have hb1 : k * p + j + min (p - j) 8 ≤ b.length := by omega
  have hr1 : s + j + min (p - j) 8 ≤ R.length := by omega
  simp only [avxChunkBody, sliceChecked_spec o.zero hb1, sliceChecked_spec o.zero hr1,
    Option.pure_def, Option.bind_eq_bind, Option.some_bind]
  rw [List.zipWith_append _ _ _ _ _ (by simp)]
  rw [zipWith_map_same]
  rw [List.take_left' (by simp)]
  unfold writeSlice
  rw [if_pos (by simp only [List.length_map, List.length_range]; omega)]

/-- The full `(0..p).step_by(8)` sweep for one `(i, k)` pair: every lane of the
row region `[s, s+p)` is multiply-accumulated once, and nothing else changes. -/
theorem avxChunkFold_aux (o : Ops α) (a_elem : α) {b : List α} {k p s L : Nat}
    {r : List α} (hr : r.length = L) (hsp : s + p ≤ L) (hbk : k * p + p ≤ b.length) :
    ∀ c, 8 * c ≤ p + 7 →
    ∃ R, (List.range' 0 c 8).foldlM
        (fun buf j => avxChunkBody o a_elem b k p s j buf) r = some R ∧
      R.length = L ∧
      ∀ t, R[t]? = if s ≤ t ∧ t < s + min (8 * c) p
        then some (o.add (r.getD t o.zero) (o.mul a_elem (b.getD (k * p + (t - s)) o.zero)))
        else r[t]?
  | 0, _ => ⟨r, rfl, hr, fun t => by rw [if_neg (by omega)]⟩
  | c + 1, hc => by
    obtain ⟨R, hfold, hRlen, hRpt⟩ :=
      avxChunkFold_aux o a_elem hr hsp hbk c (by omega)
    have h8c : 8 * c < p := by omega
    have hminc : min (8 * c) p = 8 * c := by omega
    have hrem : min (p - 8 * c) 8 ≤ p - 8 * c := Nat.min_le_left _ _
    have hminc1 : min (8 * (c + 1)) p = 8 * c + min (p - 8 * c) 8 := by omega
    have hblen : s + 8 * c + (((List.range (min (p - 8 * c) 8)).map
        (fun d => o.add (R.getD (s + 8 * c + d) o.zero)
          (o.mul a_elem (b.getD (k * p + 8 * c + d) o.zero)))).length) ≤ R.length := by
      simp only [List.length_map, List.length_range]
      omega
    refine ⟨writeRange R (s + 8 * c)
      ((List.range (min (p - 8 * c) 8)).map
        (fun d => o.add (R.getD (s + 8 * c + d) o.zero)
          (o.mul a_elem (b.getD (k * p + 8 * c + d) o.zero)))), ?_, ?_, ?_⟩
    · rw [List.range'_concat, List.foldlM_append, hfold, Nat.zero_add]
      show List.foldlM (fun buf j => avxChunkBody o a_elem b k p s j buf) R [8 * c] = _
      rw [List.foldlM_cons, avxChunkBody_spec o a_elem hRlen hsp h8c hbk]
      rfl
    · rw [writeRange_length hblen, hRlen]
    · intro t
      rw [getElem?_writeRange hblen t]
      simp only [List.length_map, List.length_range]
      by_cases h1 : s + 8 * c ≤ t ∧ t < s + 8 * c + min (p - 8 * c) 8
      · rw [if_pos h1, if_pos (by omega)]
        rw [List.getElem?_map, List.getElem?_range (by omega)]
        simp only [Option.map_some']
        have hd1 : s + 8 * c + (t - (s + 8 * c)) = t := by omega
        have hd2 : k * p + 8 * c + (t - (s + 8 * c)) = k * p + (t - s) := by omega
        rw [hd1, hd2]
        congr 2
        have hRt : R[t]? = r[t]? := by
          rw [hRpt t, if_neg (by omega)]
        rw [List.getD_eq_getElem?_getD, List.getD_eq_getElem?_getD, hRt]
      · rw [if_neg h1, hRpt t]
        by_cases h2 : s ≤ t ∧ t < s + min (8 * c) p
        · rw [if_pos h2, if_pos (by omega)]
        · rw [if_neg h2, if_neg (by omega)]

/-- The `k` loop of the vectorized kernel at row base `s`: each lane
`t ∈ [s, s+p)` accumulates, for `k` ascending, the rounded products
`a[i*n+k] * b[k*p+(t-s)]` onto its initial value. -/
theorem avxRowK_aux (o : Ops α) {a b : List α} {i n p s : Nat} {r : List α}
    (ha : i * n + n ≤ a.length) (hb : n * p ≤ b.length) (hr : s + p ≤ r.length) :
    ∀ K, K ≤ n →
    ∃ R, (List.range K).foldlM
        (fun result k => do
          let a_elem ← readChecked a (i * n + k)
          (List.range' 0 ((p + 7) / 8) 8).foldlM
            (fun result j => avxChunkBody o a_elem b k p s j result) result) r = some R ∧
      R.length = r.length ∧
      ∀ t, R[t]? = if s ≤ t ∧ t < s + p
        then some ((List.range K).foldl
          (fun acc k => o.add acc (o.mul (a.getD (i * n + k) o.zero)
            (b.getD (k * p + (t - s)) o.zero)))
          (r.getD t o.zero))
        else r[t]?
  | 0, _ => by
    refine ⟨r, rfl, rfl, fun t => ?_⟩
    by_cases ht : s ≤ t ∧ t < s + p
    · rw [if_pos ht, List.range_zero, List.foldl_nil,
        List.getElem?_eq_getElem (by omega), List.getD_eq_getElem?_getD,
        List.getElem?_eq_getElem (by omega : t < r.length)]
      rfl
    · rw [if_neg ht]
  | K + 1, hK => by
    obtain ⟨R, hfold, hRlen, hRpt⟩ := avxRowK_aux o ha hb hr K (by omega)
    have hK' : K < n := by omega
    have haK : i * n + K < a.length := by omega
    have hbK : K * p + p ≤ b.length := by
      have h1 : (K + 1) * p ≤ n * p := Nat.mul_le_mul_right p (by omega)
      have h2 : (K + 1) * p = K * p + p := by ring
      omega
    have hread : readChecked a (i * n + K) = some (a.getD (i * n + K) o.zero) := by
      unfold readChecked
      rw [List.getElem?_eq_getElem haK]
      congr 1
      rw [List.getD_eq_getElem?_getD, List.getElem?_eq_getElem haK]
      rfl
    obtain ⟨R2, hfold2, hR2len, hR2pt⟩ :=
      avxChunkFold_aux o (a.getD (i * n + K) o.zero) hRlen hr hbK ((p + 7) / 8) (by omega)
    have hminp : min (8 * ((p + 7) / 8)) p = p := by omega
    refine ⟨R2, ?_, by rw [hR2len], fun t => ?_⟩
    · rw [List.range_succ, List.foldlM_append, hfold]
      show List.foldlM (fun result k => do
          let a_elem ← readChecked a (i * n + k)
          (List.range' 0 ((p + 7) / 8) 8).foldlM
            (fun result j => avxChunkBody o a_elem b k p s j result) result) R [K] = some R2
      rw [List.foldlM_cons]
      show (do
        let a_elem ← readChecked a (i * n + K)
        (List.range' 0 ((p + 7) / 8) 8).foldlM
          (fun result j => avxChunkBody o a_elem b K p s j result) R) >>= _ = _
      rw [hread]
      show ((List.range' 0 ((p + 7) / 8) 8).foldlM
        (fun result j => avxChunkBody o (a.getD (i * n + K) o.zero) b K p s j result) R) >>= _ = _
      rw [hfold2]
      rfl
    · rw [hR2pt t, hminp]
      by_cases ht : s ≤ t ∧ t < s + p
      · rw [if_pos ht, if_pos ht, List.range_succ, List.foldl_append, List.foldl_cons,
          List.foldl_nil]
        congr 2
        have hRt : R[t]? = some ((List.range K).foldl
            (fun acc k => o.add acc (o.mul (a.getD (i * n + k) o.zero)
              (b.getD (k * p + (t - s)) o.zero)))
            (r.getD t o.zero)) := by
          rw [hRpt t, if_pos ht]
        rw [List.getD_eq_getElem?_getD, hRt]
        rfl
      · rw [if_neg ht, if_neg ht, hRpt t, if_neg ht]

/-- The vectorized `(k, j)` nest on a row region that is still zero writes
exactly the spec-side row: the per-lane accumulation order (zero, then the
products for `k` ascending) is identical to the scalar dot-product loop. -/
theorem avxRowK_eq (o : Ops α) {a b : List α} {i n p s : Nat} {r : List α}
    (ha : i * n + n ≤ a.length) (hb : n * p ≤ b.length) (hr : s + p ≤ r.length)
    (hzero : ∀ j, j < p → r[s + j]? = some o.zero) :
    avxRowK o a b i n p s r = some (writeRange r s (specRow o a b n p i)) := by
  obtain ⟨R, hfold, hRlen, hRpt⟩ := avxRowK_aux o ha hb hr n Nat.le.refl
  unfold avxRowK
  rw [hfold]
  congr 1
  apply List.ext_getElem?
  intro t
  rw [hRpt t, getElem?_writeRange (by rw [specRow_length]; exact hr) t, specRow_length]
  by_cases ht : s ≤ t ∧ t < s + p
  · rw [if_pos ht, if_pos ht, getElem?_specRow o a b n p i (by omega)]
    have hz : r.getD t o.zero = o.zero := by
      have h1 := hzero (t - s) (by omega)
      have h2 : s + (t - s) = t := by omega
      rw [h2] at h1
      exact getD_of_getElem? h1
    rw [hz]
    rfl
  · rw [if_neg ht, if_neg ht]

theorem matrix_multiply_avx_eq_spec (o : Ops α) {a b : List α} {m n p : Nat}
    (ha : m * n ≤ a.length) (hb : n * p ≤ b.length) :
    matrix_multiply_avx o a b m n p = some (specMatMul o a b m n p) := by
  have hrow : ∀ i, i < m → ∀ r : List α, r.length = m * p →
      (∀ j, j < p → r[i * p + j]? = some o.zero) →
      avxRowK o a b i n p (i * p) r
        = some (writeRange r (i * p) (specRow o a b n p i)) := by
    intro i hi r hr hz
    apply avxRowK_eq o ?_ hb ?_ hz
    · have h1 : (i + 1) * n ≤ m * n := Nat.mul_le_mul_right n (by omega)
      have h2 : (i + 1) * n = i * n + n := by ring
      omega
    · rw [hr]
      have h1 : (i + 1) * p ≤ m * p := Nat.mul_le_mul_right p (by omega)
      have h2 : (i + 1) * p = i * p + p := by ring
      omega
  show (List.range m).foldlM (fun result i => avxRowK o a b i n p (i * p) result)
      (List.replicate (m * p) o.zero) = some (specMatMul o a b m n p)
  rw [outer_foldlM o.zero (fun result i => avxRowK o a b i n p (i * p) result)
    (fun i => specRow o a b n p i) m p (specRow_length o a b n p) hrow,
    foldl_writeRows_range_eq_spec]

/-! ## Characterization of the row-partitioned kernels -/

theorem chunksGo_replicate (z : α) (p : Nat) (hp : p ≠ 0) :
    ∀ (m fuel : Nat), m * p ≤ fuel →
    chunksGo fuel p (List.replicate (m * p) z) = List.replicate m (List.replicate p z)
  | 0, fuel, _ => by
    rw [Nat.zero_mul]
    cases fuel <;> rfl
  | m + 1, fuel, hfuel => by
    have hmul : (m + 1) * p = m * p + p := by ring
    obtain ⟨f, rfl⟩ : ∃ f, fuel = f + 1 := ⟨fuel - 1, by omega⟩
    obtain ⟨q, hq⟩ : ∃ q, (m + 1) * p = q + 1 := ⟨(m + 1) * p - 1, by omega⟩
    rw [hq, List.replicate_succ]
    show (z :: List.replicate q z).take p :: chunksGo f p ((z :: List.replicate q z).drop p)
      = List.replicate (m + 1) (List.replicate p z)
    rw [← List.replicate_succ, ← hq, hmul, List.take_replicate, List.drop_replicate]
    rw [show min p (m * p + p) = p by omega, show m * p + p - p = m * p by omega]
    rw [List.replicate_succ]
    rw [chunksGo_replicate z p hp m f (by omega)]

theorem chunksMut_replicate (z : α) (m p : Nat) (hp : p ≠ 0) :
    chunksMut p (List.replicate (m * p) z) = List.replicate m (List.replicate p z) := by
  unfold chunksMut
  rw [List.length_replicate]
  exact chunksGo_replicate z p hp m (m * p) Nat.le.refl

theorem enumFrom_replicate (x : α) :
    ∀ (m s : Nat), (List.replicate m x).enumFrom s = (List.range' s m).map (fun i => (i, x))
  | 0, s => rfl
  | m + 1, s => by
    rw [List.replicate_succ, List.enumFrom_cons, List.range'_succ, List.map_cons,
      enumFrom_replicate x m (s + 1)]

theorem enum_replicate (x : α) (m : Nat) :
    (List.replicate m x).enum = (List.range m).map (fun i => (i, x)) := by
  show (List.replicate m x).enumFrom 0 = _
  rw [enumFrom_replicate, List.range_eq_range']

/-- `writeRange` into a buffer of exactly the written length is the written list. -/
theorem writeRange_all (r vs : List α) (h : vs.length = r.length) :
    writeRange r 0 vs = vs := by
  unfold writeRange
  rw [List.take_zero, List.drop_eq_nil_of_le (by omega), List.nil_append, List.append_nil]

/-- The `matrix_multiply_rayon` row worker on its zeroed chunk computes the
spec-side row. -/
theorem scalarRowWorker_eq (o : Ops α) {a b : List α} {i m n p : Nat}
    (ha : m * n ≤ a.length) (hb : n * p ≤ b.length) (hi : i < m) :
    scalarRowLoop o a b i n p 0 (List.replicate p o.zero) = some (specRow o a b n p i) := by
  have h1 : (i + 1) * n ≤ m * n := Nat.mul_le_mul_right n (by omega)
  have h2 : (i + 1) * n = i * n + n := by ring
  rw [scalarRowLoop_eq o (by omega) hb (by simp)]
  rw [writeRange_all _ _ (by simp [specRow_length])]

/-- The `matrix_multiply_avx_rayon` row worker on its zeroed chunk computes the
spec-side row. -/
theorem avxRowWorker_eq (o : Ops α) {a b : List α} {i m n p : Nat}
    (ha : m * n ≤ a.length) (hb : n * p ≤ b.length) (hi : i < m) :
    avxRowK o a b i n p 0 (List.replicate p o.zero) = some (specRow o a b n p i) := by
  have h1 : (i + 1) * n ≤ m * n := Nat.mul_le_mul_right n (by omega)
  have h2 : (i + 1) * n = i * n + n := by ring
  rw [avxRowK_eq o (by omega) hb (by simp)
    (fun j hj => by rw [Nat.zero_add]; exact List.getElem?_replicate_of_lt hj)]
  rw [writeRange_all _ _ (by simp [specRow_length])]

theorem matrix_multiply_rayon_eq_spec (o : Ops α) {a b : List α} {m n p : Nat}
    (ha : m * n ≤ a.length) (hb : n * p ≤ b.length) (hp : p ≠ 0) :
    matrix_multiply_rayon o a b m n p = some (specMatMul o a b m n p) := by
  unfold matrix_multiply_rayon
  rw [if_neg hp, chunksMut_replicate o.zero m p hp, enum_replicate]
  have hmapM : ((List.range m).map (fun i => (i, List.replicate p o.zero))).mapM
      (fun ic => scalarRowLoop o a b ic.1 n p 0 ic.2)
      = some (((List.range m).map (fun i => (i, List.replicate p o.zero))).map
          (fun ic => specRow o a b n p ic.1)) := by
    apply mapM_eq_map_of_some
    intro x hx
    obtain ⟨i, hi, rfl⟩ := List.mem_map.mp hx
    exact scalarRowWorker_eq o ha hb (List.mem_range.mp hi)
  rw [hmapM]
  show some (List.flatten _) = _
  rw [List.map_map]
  rfl

theorem matrix_multiply_avx_rayon_eq_spec (o : Ops α) {a b : List α} {m n p : Nat}
    (ha : m * n ≤ a.length) (hb : n * p ≤ b.length) (hp : p ≠ 0) :
    matrix_multiply_avx_rayon o a b m n p = some (specMatMul o a b m n p) := by
  unfold matrix_multiply_avx_rayon
  rw [if_neg hp, chunksMut_replicate o.zero m p hp, enum_replicate]
  have hmapM : ((List.range m).map (fun i => (i, List.replicate p o.zero))).mapM
      (fun ic => avxRowK o a b ic.1 n p 0 ic.2)
      = some (((List.range m).map (fun i => (i, List.replicate p o.zero))).map
          (fun ic => specRow o a b n p ic.1)) := by
    apply mapM_eq_map_of_some
    intro x hx
    obtain ⟨i, hi, rfl⟩ := List.mem_map.mp hx
    exact avxRowWorker_eq o ha hb (List.mem_range.mp hi)
  rw [hmapM]
  show some (List.flatten _) = _
  rw [List.map_map]
  rfl

theorem matrix_multiply_rayon_zero_p (o : Ops α) (a b : List α) (m n : Nat) :
    matrix_multiply_rayon o a b m n 0 = none := rfl

theorem matrix_multiply_avx_rayon_zero_p (o : Ops α) (a b : List α) (m n : Nat) :
    matrix_multiply_avx_rayon o a b m n 0 = none := rfl

/-! ## Schedule independence of the partitioned kernels -/

theorem rayonScheduled_eq_spec (o : Ops α) {a b : List α} {m n p : Nat} {order : List Nat}
    (ha : m * n ≤ a.length) (hb : n * p ≤ b.length) (hp : p ≠ 0)
    (hperm : order.Perm (List.range m)) :
    rayonScheduled o a b m n p order = some (specMatMul o a b m n p) := by
  have hmem : ∀ i ∈ order, i < m := fun i hi => List.mem_range.mp (hperm.mem_iff.mp hi)
  show (if p = 0 then none
    else order.foldlM (fun buf i => do
      let row ← scalarRowLoop o a b i n p 0 (List.replicate p o.zero)
      writeSlice buf (i * p) row) (List.replicate (m * p) o.zero))
    = some (specMatMul o a b m n p)
  rw [if_neg hp]
  have hstep : ∀ (buf : List α) (i : Nat), i ∈ order → buf.length = m * p →
      (fun buf i => do
        let row ← scalarRowLoop o a b i n p 0 (List.replicate p o.zero)
        writeSlice buf (i * p) row : List α → Nat → Option (List α)) buf i
        = some (writeRange buf (i * p) (specRow o a b n p i))
      ∧ (writeRange buf (i * p) (specRow o a b n p i)).length = m * p := by
    intro buf i hi hbuf
    have him : i < m := hmem i hi
    have h2 : (i + 1) * p = i * p + p := by ring
    have h3 : (i + 1) * p ≤ m * p := Nat.mul_le_mul_right p (by omega)
    constructor
    · show (do
        let row ← scalarRowLoop o a b i n p 0 (List.replicate p o.zero)
        writeSlice buf (i * p) row) = some (writeRange buf (i * p) (specRow o a b n p i))
      rw [scalarRowWorker_eq o ha hb him]
      show writeSlice buf (i * p) (specRow o a b n p i) = _
      unfold writeSlice
      rw [if_pos (by rw [specRow_length, hbuf]; omega)]
    · rw [writeRange_length (by rw [specRow_length, hbuf]; omega), hbuf]
  have hfold := foldlM_eq_foldl_of_some (fun buf : List α => buf.length = m * p)
    (g := fun buf i => writeRange buf (i * p) (specRow o a b n p i))
    order (List.replicate (m * p) o.zero) (by simp) hstep
  rw [hfold.1]
  congr 1
  have hspec := foldl_writeRows_spec m p (fun i => specRow o a b n p i)
    (specRow_length o a b n p) order (List.replicate (m * p) o.zero) hmem (by simp)
  apply List.ext_getElem?
  intro t
  rw [hspec.2 t, getElem?_specMatMul]
  by_cases h1 : t < m * p
  · have hp0 : 0 < p := Nat.pos_of_ne_zero hp
    have hdm : t / p < m := (Nat.div_lt_iff_lt_mul hp0).mpr (by omega)
    rw [if_pos ⟨hperm.mem_iff.mpr (List.mem_range.mpr hdm), h1⟩, if_pos h1,
      getElem?_specRow o a b n p (t / p) (Nat.mod_lt t hp0)]
  · rw [if_neg (by rintro ⟨_, hc⟩; exact h1 hc), if_neg h1, List.getElem?_replicate,
      if_neg (by omega)]

theorem avxRayonScheduled_eq_spec (o : Ops α) {a b : List α} {m n p : Nat} {order : List Nat}
    (ha : m * n ≤ a.length) (hb : n * p ≤ b.length) (hp : p ≠ 0)
    (hperm : order.Perm (List.range m)) :
    avxRayonScheduled o a b m n p order = some (specMatMul o a b m n p) := by
  have hmem : ∀ i ∈ order, i < m := fun i hi => List.mem_range.mp (hperm.mem_iff.mp hi)
  show (if p = 0 then none
    else order.foldlM (fun buf i => do
      let row ← avxRowK o a b i n p 0 (List.replicate p o.zero)
      writeSlice buf (i * p) row) (List.replicate (m * p) o.zero))
    = some (specMatMul o a b m n p)
  rw [if_neg hp]
  have hstep : ∀ (buf : List α) (i : Nat), i ∈ order → buf.length = m * p →
      (fun buf i => do
        let row ← avxRowK o a b i n p 0 (List.replicate p o.zero)
        writeSlice buf (i * p) row : List α → Nat → Option (List α)) buf i
        = some (writeRange buf (i * p) (specRow o a b n p i))
      ∧ (writeRange buf (i * p) (specRow o a b n p i)).length = m * p := by
    intro buf i hi hbuf
    have him : i < m := hmem i hi
    have h2 : (i + 1) * p = i * p + p := by ring
    have h3 : (i + 1) * p ≤ m * p := Nat.mul_le_mul_right p (by omega)
    constructor
    · show (do
        let row ← avxRowK o a b i n p 0 (List.replicate p o.zero)
        writeSlice buf (i * p) row) = some (writeRange buf (i * p) (specRow o a b n p i))
      rw [avxRowWorker_eq o ha hb him]
      show writeSlice buf (i * p) (specRow o a b n p i) = _
      unfold writeSlice
      rw [if_pos (by rw [specRow_length, hbuf]; omega)]
    · rw [writeRange_length (by rw [specRow_length, hbuf]; omega), hbuf]
  have hfold := foldlM_eq_foldl_of_some (fun buf : List α => buf.length = m * p)
    (g := fun buf i => writeRange buf (i * p) (specRow o a b n p i))
    order (List.replicate (m * p) o.zero) (by simp) hstep
  rw [hfold.1]
  congr 1
  have hspec := foldl_writeRows_spec m p (fun i => specRow o a b n p i)
    (specRow_length o a b n p) order (List.replicate (m * p) o.zero) hmem (by simp)
  apply List.ext_getElem?
  intro t
  rw [hspec.2 t, getElem?_specMatMul]
  by_cases h1 : t < m * p
  · have hp0 : 0 < p := Nat.pos_of_ne_zero hp
    have hdm : t / p < m := (Nat.div_lt_iff_lt_mul hp0).mpr (by omega)
    rw [if_pos ⟨hperm.mem_iff.mpr (List.mem_range.mpr hdm), h1⟩, if_pos h1,
      getElem?_specRow o a b n p (t / p) (Nat.mod_lt t hp0)]
  · rw [if_neg (by rintro ⟨_, hc⟩; exact h1 hc), if_neg h1, List.getElem?_replicate,
      if_neg (by omega)]

/-! ## Degenerate dimensions and input-prefix dependence -/

theorem specMatMul_zero_n (o : Ops α) (a b : List α) (m p : Nat) :
    specMatMul o a b m 0 p = List.replicate (m * p) o.zero := by
  apply List.ext_getElem?
  intro t
  rw [getElem?_specMatMul, List.getElem?_replicate]
  by_cases h : t < m * p
  · rw [if_pos h, if_pos h]
    rfl
  · rw [if_neg h, if_neg h]

theorem specMatMul_nil (o : Ops α) (a b : List α) {m n p : Nat} (h : m * p = 0) :
    specMatMul o a b m n p = [] := by
  apply List.eq_nil_of_length_eq_zero
  rw [specMatMul_length, h]

theorem getD_congr_of_take_eq {l l2 : List α} {K t : Nat} (z : α)
    (h : l.take K = l2.take K) (ht : t < K) :
    l.getD t z = l2.getD t z := by
  rw [List.getD_eq_getElem?_getD, List.getD_eq_getElem?_getD,
    ← List.getElem?_take_of_lt ht (l := l), h, List.getElem?_take_of_lt ht]

theorem specDot_congr (o : Ops α) {a a2 b b2 : List α} {i j m n p : Nat}
    (hi : i < m) (hj : j < p)
    (ea : a.take (m * n) = a2.take (m * n)) (eb : b.take (n * p) = b2.take (n * p)) :
    specDot o a b i j n p = specDot o a2 b2 i j n p := by
  unfold specDot
  apply List.foldl_ext
  intro acc k hk
  have hk' : k < n := List.mem_range.mp hk
  have hin : (i + 1) * n ≤ m * n := Nat.mul_le_mul_right n (by omega)
  have hin2 : (i + 1) * n = i * n + n := by ring
  have hkp : (k + 1) * p ≤ n * p := Nat.mul_le_mul_right p (by omega)
  have hkp2 : (k + 1) * p = k * p + p := by ring
  rw [getD_congr_of_take_eq o.zero ea (by omega),
    getD_congr_of_take_eq o.zero eb (by omega)]

theorem specMatMul_congr (o : Ops α) {a a2 b b2 : List α} {m n p : Nat}
    (ea : a.take (m * n) = a2.take (m * n)) (eb : b.take (n * p) = b2.take (n * p)) :
    specMatMul o a b m n p = specMatMul o a2 b2 m n p := by
  apply List.ext_getElem?
  intro t
  rw [getElem?_specMatMul, getElem?_specMatMul]
  by_cases h : t < m * p
  · have hp0 : 0 < p := by
      rcases Nat.eq_zero_or_pos p with h0 | h0
      · subst h0; omega
      · exact h0
    rw [if_pos h, if_pos h]
    congr 1
    exact specDot_congr o ((Nat.div_lt_iff_lt_mul hp0).mpr (by omega))
      (Nat.mod_lt t hp0) ea eb
  · rw [if_neg h, if_neg h]

/-! ## The claims -/

/-- C1: for buffers `a` of length `m*n` and `b` of length `n*p`,
`matrix_multiply` returns a newly allocated buffer of length `m*p` whose
element at index `i*p+j` is the dot product over `k = 0 .. n-1` of
`a[i*n+k] * b[k*p+j]`, accumulated with `k` ascending by a fold that starts
at `0.0` and adds `a[i*n+k]*b[k*p+j]` for each successive `k`. -/
theorem C1_scalar_entries (o : Ops α) (a b : List α) (m n p : Nat)
    (ha : a.length = m * n) (hb : b.length = n * p) :
    ∃ r, matrix_multiply o a b m n p = some r ∧ r.length = m * p ∧
      ∀ i j, i < m → j < p →
        r[i * p + j]? = some ((List.range n).foldl
          (fun sum k => o.add sum
            (o.mul (a.getD (i * n + k) o.zero) (b.getD (k * p + j) o.zero)))
          o.zero) := by
  refine ⟨specMatMul o a b m n p, matrix_multiply_eq_spec o (by omega) (by omega),
    specMatMul_length o a b m n p, ?_⟩
  intro i j hi hj
  have hp0 : 0 < p := by omega
  have h1 : (i + 1) * p ≤ m * p := Nat.mul_le_mul_right p (by omega)
  have h2 : (i + 1) * p = i * p + p := by ring
  rw [getElem?_specMatMul]
  have hdiv : (i * p + j) / p = i :=
    (div_eq_iff_region hp0 i _).mpr ⟨by omega, by omega⟩
  have hmod : (i * p + j) % p = j := by
    have h3 := mod_eq_sub_of_region hp0 (show i * p ≤ i * p + j by omega)
      (show i * p + j < i * p + p by omega)
    omega
  rw [if_pos (by omega), hdiv, hmod]
  rfl

/-- C1 witness: the concrete scenario-1 inputs satisfy the hypotheses and the
conclusion of `C1_scalar_entries`. -/
theorem C1_scalar_entries_witness :
    ([(1 : Int), 2, 3, 4, 5, 6].length = 2 * 3) ∧
    ([(7 : Int), 8, 9, 10, 11, 12].length = 3 * 2) ∧
    (∃ r, matrix_multiply intOps [1, 2, 3, 4, 5, 6] [7, 8, 9, 10, 11, 12] 2 3 2 = some r ∧
      r.length = 2 * 2 ∧
      ∀ i j, i < 2 → j < 2 →
        r[i * 2 + j]? = some ((List.range 3).foldl
          (fun sum k => intOps.add sum
            (intOps.mul ([(1 : Int), 2, 3, 4, 5, 6].getD (i * 3 + k) intOps.zero)
              ([(7 : Int), 8, 9, 10, 11, 12].getD (k * 2 + j) intOps.zero)))
          intOps.zero)) :=
  ⟨by decide, by decide,
    C1_scalar_entries intOps [1, 2, 3, 4, 5, 6] [7, 8, 9, 10, 11, 12] 2 3 2
      (by decide) (by decide)⟩

/-- C2 counterexample: the claim quantifies over all exactly-representable
integer-valued inputs, which includes the valid degenerate input
`a = [1], b = [], m = 1, n = 1, p = 0`.  There `matrix_multiply` returns the
empty buffer but `matrix_multiply_rayon` panics (rayon's `par_chunks_mut`
asserts a nonzero chunk size), so the four variants do not all return
bit-identical results. -/
theorem C2_counterexample :
    matrix_multiply intOps [1] [] 1 1 0 = some [] ∧
    matrix_multiply_rayon intOps [1] [] 1 1 0 = none := by
  exact ⟨by decide, by decide⟩

/-- C2 (amended): for valid inputs with `p ≠ 0` all four variants return
identical results — in fact for every abstract arithmetic, hence in
particular bit-identically for `f32`, not only on small-integer inputs; the
row-partitioned variants panic when `p = 0`.  On the concrete scenario-1
integer input every variant returns `[58, 64, 139, 154]`. -/
theorem C2_variants_bit_identical (o : Ops α) (a b : List α) (m n p : Nat)
    (ha : a.length = m * n) (hb : b.length = n * p) (hp : p ≠ 0) :
    (matrix_multiply_rayon o a b m n p = matrix_multiply o a b m n p ∧
     matrix_multiply_avx o a b m n p = matrix_multiply o a b m n p ∧
     matrix_multiply_avx_rayon o a b m n p = matrix_multiply o a b m n p) ∧
    (matrix_multiply intOps [1, 2, 3, 4, 5, 6] [7, 8, 9, 10, 11, 12] 2 3 2
        = some [58, 64, 139, 154] ∧
     matrix_multiply_rayon intOps [1, 2, 3, 4, 5, 6] [7, 8, 9, 10, 11, 12] 2 3 2
        = some [58, 64, 139, 154] ∧
     matrix_multiply_avx intOps [1, 2, 3, 4, 5, 6] [7, 8, 9, 10, 11, 12] 2 3 2
        = some [58, 64, 139, 154] ∧
     matrix_multiply_avx_rayon intOps [1, 2, 3, 4, 5, 6] [7, 8, 9, 10, 11, 12] 2 3 2
        = some [58, 64, 139, 154]) := by
  refine ⟨⟨?_, ?_, ?_⟩, by decide, by decide, by decide, by decide⟩
  · rw [matrix_multiply_rayon_eq_spec o (by omega) (by omega) hp,
      matrix_multiply_eq_spec o (by omega) (by omega)]
  · rw [matrix_multiply_avx_eq_spec o (by omega) (by omega),
      matrix_multiply_eq_spec o (by omega) (by omega)]
  · rw [matrix_multiply_avx_rayon_eq_spec o (by omega) (by omega) hp,
      matrix_multiply_eq_spec o (by omega) (by omega)]

/-- C2 witness: the scenario-1 input satisfies the hypotheses of the amended
claim, and all four variants agree on it. -/
theorem C2_variants_bit_identical_witness :
    (([(1 : Int), 2, 3, 4, 5, 6].length = 2 * 3) ∧
     ([(7 : Int), 8, 9, 10, 11, 12].length = 3 * 2) ∧ (2 ≠ 0)) ∧
    ((matrix_multiply_rayon intOps [1, 2, 3, 4, 5, 6] [7, 8, 9, 10, 11, 12] 2 3 2
        = matrix_multiply intOps [1, 2, 3, 4, 5, 6] [7, 8, 9, 10, 11, 12] 2 3 2 ∧
      matrix_multiply_avx intOps [1, 2, 3, 4, 5, 6] [7, 8, 9, 10, 11, 12] 2 3 2
        = matrix_multiply intOps [1, 2, 3, 4, 5, 6] [7, 8, 9, 10, 11, 12] 2 3 2 ∧
      matrix_multiply_avx_rayon intOps [1, 2, 3, 4, 5, 6] [7, 8, 9, 10, 11, 12] 2 3 2
        = matrix_multiply intOps [1, 2, 3, 4, 5, 6] [7, 8, 9, 10, 11, 12] 2 3 2) ∧
     (matrix_multiply intOps [1, 2, 3, 4, 5, 6] [7, 8, 9, 10, 11, 12] 2 3 2
        = some [58, 64, 139, 154] ∧
      matrix_multiply_rayon intOps [1, 2, 3, 4, 5, 6] [7, 8, 9, 10, 11, 12] 2 3 2
        = some [58, 64, 139, 154] ∧
      matrix_multiply_avx intOps [1, 2, 3, 4, 5, 6] [7, 8, 9, 10, 11, 12] 2 3 2
        = some [58, 64, 139, 154] ∧
      matrix_multiply_avx_rayon intOps [1, 2, 3, 4, 5, 6] [7, 8, 9, 10, 11, 12] 2 3 2
        = some [58, 64, 139, 154])) :=
  ⟨⟨by decide, by decide, by decide⟩,
    C2_variants_bit_identical intOps [1, 2, 3, 4, 5, 6] [7, 8, 9, 10, 11, 12] 2 3 2
      (by decide) (by decide) (by decide)⟩

/-- C3: for every valid input (`len a = m*n`, `len b = n*p`), including every
`p` that is not a multiple of 8, every bounds-checked slice access of the
vectorized kernels succeeds — the embedding checks each read of
`b[k*p+j .. k*p+j+remaining]` with `remaining = min (p-j) 8`, each read and
write of the result lanes `[s+j, s+j+remaining)`, and pads the unused lanes
with zero — so the kernels never touch an index beyond the buffers' valid
range and return a result.  (For `matrix_multiply_avx_rayon` and `p = 0` the
rayon chunk-size assertion fires before any slice access is attempted.) -/
theorem C3_avx_in_bounds (o : Ops α) (a b : List α) (m n p : Nat)
    (ha : a.length = m * n) (hb : b.length = n * p) :
    (matrix_multiply_avx o a b m n p).isSome = true ∧
    (p ≠ 0 → (matrix_multiply_avx_rayon o a b m n p).isSome = true) := by
  constructor
  · rw [matrix_multiply_avx_eq_spec o (by omega) (by omega)]
    rfl
  · intro hp
    rw [matrix_multiply_avx_rayon_eq_spec o (by omega) (by omega) hp]
    rfl

/-- C3 witness: `p = 10` (not a multiple of 8) exercises the remainder path;
both vectorized kernels stay in bounds and return. -/
theorem C3_avx_in_bounds_witness :
    ([(1 : Int), 2].length = 1 * 2) ∧
    ([(0 : Int), 1, 2, 3, 4, 5, 6, 7, 8, 9, 10, 11, 12, 13, 14, 15, 16, 17, 18, 19].length
      = 2 * 10) ∧
    ((matrix_multiply_avx intOps [1, 2]
        [0, 1, 2, 3, 4, 5, 6, 7, 8, 9, 10, 11, 12, 13, 14, 15, 16, 17, 18, 19]
        1 2 10).isSome = true ∧
     (10 ≠ 0 → (matrix_multiply_avx_rayon intOps [1, 2]
        [0, 1, 2, 3, 4, 5, 6, 7, 8, 9, 10, 11, 12, 13, 14, 15, 16, 17, 18, 19]
        1 2 10).isSome = true)) :=
  ⟨by decide, by decide,
    C3_avx_in_bounds intOps [1, 2]
      [0, 1, 2, 3, 4, 5, 6, 7, 8, 9, 10, 11, 12, 13, 14, 15, 16, 17, 18, 19]
      1 2 10 (by decide) (by decide)⟩

/-- C4 counterexample: at the degenerate input `m = 0, n = 0, p = 0` the claim
says every variant returns an empty sequence, but both row-partitioned
variants panic (rayon's `par_chunks_mut` asserts a nonzero chunk size) while
the non-partitioned variants do return the empty buffer. -/
theorem C4_counterexample :
    matrix_multiply_rayon intOps [] [] 0 0 0 = none ∧
    matrix_multiply_avx_rayon intOps [] [] 0 0 0 = none ∧
    matrix_multiply intOps [] [] 0 0 0 = some [] ∧
    matrix_multiply_avx intOps [] [] 0 0 0 = some [] := by
  exact ⟨by decide, by decide, by decide, by decide⟩

/-- C4 (amended): zero-valued dimensions are not an error for the
non-partitioned kernels, which return the correctly-shaped all-zero result of
length `m*p` (empty when `m = 0` or `p = 0`); the row-partitioned kernels do
the same whenever `p ≠ 0` (in particular for `m = 0` or `n = 0`), but panic
when `p = 0` because rayon's `par_chunks_mut` rejects a zero chunk size. -/
theorem C4_degenerate_dims (o : Ops α) (a b : List α) (m n p : Nat)
    (ha : a.length = m * n) (hb : b.length = n * p) (hz : m = 0 ∨ n = 0 ∨ p = 0) :
    matrix_multiply o a b m n p = some (List.replicate (m * p) o.zero) ∧
    matrix_multiply_avx o a b m n p = some (List.replicate (m * p) o.zero) ∧
    (p ≠ 0 → matrix_multiply_rayon o a b m n p = some (List.replicate (m * p) o.zero) ∧
      matrix_multiply_avx_rayon o a b m n p = some (List.replicate (m * p) o.zero)) ∧
    (p = 0 → matrix_multiply_rayon o a b m n p = none ∧
      matrix_multiply_avx_rayon o a b m n p = none) := by
  have hzz : specMatMul o a b m n p = List.replicate (m * p) o.zero := by
    rcases hz with h | h | h
    · subst h
      rw [specMatMul_nil o a b (by simp), Nat.zero_mul]
      rfl
    · subst h
      exact specMatMul_zero_n o a b m p
    · subst h
      rw [specMatMul_nil o a b (by simp), Nat.mul_zero]
      rfl
  refine ⟨?_, ?_, fun hp => ⟨?_, ?_⟩, fun hp => ?_⟩
  · rw [matrix_multiply_eq_spec o (by omega) (by omega), hzz]
  · rw [matrix_multiply_avx_eq_spec o (by omega) (by omega), hzz]
  · rw [matrix_multiply_rayon_eq_spec o (by omega) (by omega) hp, hzz]
  · rw [matrix_multiply_avx_rayon_eq_spec o (by omega) (by omega) hp, hzz]
  · subst hp
    exact ⟨rfl, rfl⟩

/-- C4 witness: `m = 2, n = 0, p = 3` is a zero-valued shared dimension; the
kernels return the all-zero `2×3` result (and `p ≠ 0`, so the partitioned
kernels return it too). -/
theorem C4_degenerate_dims_witness :
    (([] : List Int).length = 2 * 0) ∧ (([] : List Int).length = 0 * 3) ∧
    (2 = 0 ∨ 0 = 0 ∨ 3 = 0) ∧
    (matrix_multiply intOps [] [] 2 0 3 = some (List.replicate (2 * 3) intOps.zero) ∧
     matrix_multiply_avx intOps [] [] 2 0 3 = some (List.replicate (2 * 3) intOps.zero) ∧
     (3 ≠ 0 → matrix_multiply_rayon intOps [] [] 2 0 3
          = some (List.replicate (2 * 3) intOps.zero) ∧
        matrix_multiply_avx_rayon intOps [] [] 2 0 3
          = some (List.replicate (2 * 3) intOps.zero)) ∧
     (3 = 0 → matrix_multiply_rayon intOps [] [] 2 0 3 = none ∧
        matrix_multiply_avx_rayon intOps [] [] 2 0 3 = none)) :=
  ⟨by decide, by decide, by decide,
    C4_degenerate_dims intOps [] [] 2 0 3 (by decide) (by decide) (Or.inr (Or.inl rfl))⟩

/-- C5 counterexample: at the valid input `a = [], b = [], m = 1, n = 0, p = 0`
(lengths `0 = 1*0` and `0 = 0*0`) the claim says every variant returns a
buffer of length `m*p = 0`, but `matrix_multiply_avx_rayon` panics on rayon's
zero-chunk-size assertion and returns no buffer at all. -/
theorem C5_counterexample :
    matrix_multiply_avx_rayon intOps [] [] 1 0 0 = none ∧
    ¬ ∃ r : List Int, matrix_multiply_avx_rayon intOps [] [] 1 0 0 = some r ∧
      r.length = 1 * 0 := by
  refine ⟨by decide, ?_⟩
  rintro ⟨r, hr, _⟩
  have hnone : matrix_multiply_avx_rayon intOps ([] : List Int) [] 1 0 0 = none := by decide
  rw [hnone] at hr
  exact Option.noConfusion hr

/-- C5 (amended): for valid inputs the two non-partitioned variants always
return a buffer of length exactly `m*p`; the two row-partitioned variants do
so whenever `p ≠ 0`, and panic when `p = 0`. -/
theorem C5_result_lengths (o : Ops α) (a b : List α) (m n p : Nat)
    (ha : a.length = m * n) (hb : b.length = n * p) :
    (∃ r, matrix_multiply o a b m n p = some r ∧ r.length = m * p) ∧
    (∃ r, matrix_multiply_avx o a b m n p = some r ∧ r.length = m * p) ∧
    (p ≠ 0 →
      (∃ r, matrix_multiply_rayon o a b m n p = some r ∧ r.length = m * p) ∧
      (∃ r, matrix_multiply_avx_rayon o a b m n p = some r ∧ r.length = m * p)) := by
  refine ⟨⟨specMatMul o a b m n p, matrix_multiply_eq_spec o (by omega) (by omega),
      specMatMul_length o a b m n p⟩,
    ⟨specMatMul o a b m n p, matrix_multiply_avx_eq_spec o (by omega) (by omega),
      specMatMul_length o a b m n p⟩,
    fun hp => ⟨⟨specMatMul o a b m n p,
      matrix_multiply_rayon_eq_spec o (by omega) (by omega) hp,
      specMatMul_length o a b m n p⟩,
      ⟨specMatMul o a b m n p,
        matrix_multiply_avx_rayon_eq_spec o (by omega) (by omega) hp,
        specMatMul_length o a b m n p⟩⟩⟩

/-- C5 witness: on the scenario-1 shape `(m, n, p) = (2, 3, 2)` every variant
returns a buffer of length 4. -/
theorem C5_result_lengths_witness :
    ([(1 : Int), 2, 3, 4, 5, 6].length = 2 * 3) ∧
    ([(7 : Int), 8, 9, 10, 11, 12].length = 3 * 2) ∧
    ((∃ r, matrix_multiply intOps [1, 2, 3, 4, 5, 6] [7, 8, 9, 10, 11, 12] 2 3 2
        = some r ∧ r.length = 2 * 2) ∧
     (∃ r, matrix_multiply_avx intOps [1, 2, 3, 4, 5, 6] [7, 8, 9, 10, 11, 12] 2 3 2
        = some r ∧ r.length = 2 * 2) ∧
     (2 ≠ 0 →
       (∃ r, matrix_multiply_rayon intOps [1, 2, 3, 4, 5, 6] [7, 8, 9, 10, 11, 12] 2 3 2
          = some r ∧ r.length = 2 * 2) ∧
       (∃ r, matrix_multiply_avx_rayon intOps [1, 2, 3, 4, 5, 6] [7, 8, 9, 10, 11, 12] 2 3 2
          = some r ∧ r.length = 2 * 2))) :=
  ⟨by decide, by decide,
    C5_result_lengths intOps [1, 2, 3, 4, 5, 6] [7, 8, 9, 10, 11, 12] 2 3 2
      (by decide) (by decide)⟩

/-- C6 counterexample: at the valid input `a = [3, 4], b = [], m = 2, n = 1,
p = 0` the scalar kernel returns the empty buffer but the row-partitioned
kernel panics on rayon's zero-chunk-size assertion, so the two functions are
not extensionally equal on all valid inputs. -/
theorem C6_counterexample :
    matrix_multiply intOps [3, 4] [] 2 1 0 = some [] ∧
    matrix_multiply_rayon intOps [3, 4] [] 2 1 0 = none := by
  exact ⟨by decide, by decide⟩

/-- C6 (amended): for every valid input with `p ≠ 0` — over any value type and
any addition and multiplication, so in particular for all floating-point
inputs — `matrix_multiply_rayon` returns a result identical to
`matrix_multiply`: each output element is computed by the same sequential
`k`-ascending dot-product accumulation.  When `p = 0` the rayon variant
panics instead of returning. -/
theorem C6_rayon_eq_scalar (o : Ops α) (a b : List α) (m n p : Nat)
    (ha : a.length = m * n) (hb : b.length = n * p) (hp : p ≠ 0) :
    matrix_multiply_rayon o a b m n p = matrix_multiply o a b m n p := by
  rw [matrix_multiply_rayon_eq_spec o (by omega) (by omega) hp,
    matrix_multiply_eq_spec o (by omega) (by omega)]

/-- C6 witness: the two kernels agree on the scenario-1 input. -/
theorem C6_rayon_eq_scalar_witness :
    ([(1 : Int), 2, 3, 4, 5, 6].length = 2 * 3) ∧
    ([(7 : Int), 8, 9, 10, 11, 12].length = 3 * 2) ∧ (2 ≠ 0) ∧
    matrix_multiply_rayon intOps [1, 2, 3, 4, 5, 6] [7, 8, 9, 10, 11, 12] 2 3 2
      = matrix_multiply intOps [1, 2, 3, 4, 5, 6] [7, 8, 9, 10, 11, 12] 2 3 2 :=
  ⟨by decide, by decide, by decide,
    C6_rayon_eq_scalar intOps [1, 2, 3, 4, 5, 6] [7, 8, 9, 10, 11, 12] 2 3 2
      (by decide) (by decide) (by decide)⟩

/-- C7: for every valid input — over any value type and any addition and
multiplication, hence bit-identically for all `f32` inputs, not merely
exactly-representable integer ones — `matrix_multiply_avx` equals
`matrix_multiply`: per output element `(i, j)` both kernels start from `0.0`
and, for `k` ascending, add the product `a[i*n+k] * b[k*p+j]` to the running
sum, the vectorized kernel merely keeping the accumulator in the result
buffer instead of a local variable. -/
theorem C7_avx_eq_scalar (o : Ops α) (a b : List α) (m n p : Nat)
    (ha : a.length = m * n) (hb : b.length = n * p) :
    matrix_multiply_avx o a b m n p = matrix_multiply o a b m n p := by
  rw [matrix_multiply_avx_eq_spec o (by omega) (by omega),
    matrix_multiply_eq_spec o (by omega) (by omega)]

/-- C7 witness: the two kernels agree on a `p = 10` input that exercises the
remainder path. -/
theorem C7_avx_eq_scalar_witness :
    ([(1 : Int), 2].length = 1 * 2) ∧
    ([(0 : Int), 1, 2, 3, 4, 5, 6, 7, 8, 9, 10, 11, 12, 13, 14, 15, 16, 17, 18, 19].length
      = 2 * 10) ∧
    matrix_multiply_avx intOps [1, 2]
        [0, 1, 2, 3, 4, 5, 6, 7, 8, 9, 10, 11, 12, 13, 14, 15, 16, 17, 18, 19] 1 2 10
      = matrix_multiply intOps [1, 2]
        [0, 1, 2, 3, 4, 5, 6, 7, 8, 9, 10, 11, 12, 13, 14, 15, 16, 17, 18, 19] 1 2 10 :=
  ⟨by decide, by decide,
    C7_avx_eq_scalar intOps [1, 2]
      [0, 1, 2, 3, 4, 5, 6, 7, 8, 9, 10, 11, 12, 13, 14, 15, 16, 17, 18, 19] 1 2 10
      (by decide) (by decide)⟩

/-- C8: every kernel is a deterministic pure function of `(a, b, m, n, p)`:
two successive calls on the same (immutably borrowed, never-mutated) inputs
yield the same output, with no state retained between the calls.  In the
embedding the kernels are functions of their arguments alone — the Rust
originals take shared `&[f32]` borrows and touch no global state — so the two
components of `callTwice` coincide for every input, valid or not. -/
theorem C8_kernels_pure (o : Ops α) (a b : List α) (m n p : Nat) :
    (callTwice (matrix_multiply o) a b m n p).1
      = (callTwice (matrix_multiply o) a b m n p).2 ∧
    (callTwice (matrix_multiply_rayon o) a b m n p).1
      = (callTwice (matrix_multiply_rayon o) a b m n p).2 ∧
    (callTwice (matrix_multiply_avx o) a b m n p).1
      = (callTwice (matrix_multiply_avx o) a b m n p).2 ∧
    (callTwice (matrix_multiply_avx_rayon o) a b m n p).1
      = (callTwice (matrix_multiply_avx_rayon o) a b m n p).2 :=
  ⟨rfl, rfl, rfl, rfl⟩

/-- C9: executing the row workers of the partitioned kernels in any order
(`order` an arbitrary permutation of the row indices — which covers any
assignment of the disjoint one-row chunks to any number of workers) yields
exactly the result of the kernels themselves: each worker writes only its own
disjoint row region, all rows are complete in the returned buffer, and the
result is schedule-independent. -/
theorem C9_schedule_independent (o : Ops α) (a b : List α) (m n p : Nat)
    (order : List Nat) (ha : a.length = m * n) (hb : b.length = n * p)
    (hperm : order.Perm (List.range m)) :
    rayonScheduled o a b m n p order = matrix_multiply_rayon o a b m n p ∧
    avxRayonScheduled o a b m n p order = matrix_multiply_avx_rayon o a b m n p := by
  rcases Nat.eq_zero_or_pos p with hp | hp
  · subst hp
    exact ⟨rfl, rfl⟩
  · have hp2 : p ≠ 0 := by omega
    constructor
    · rw [rayonScheduled_eq_spec o (by omega) (by omega) hp2 hperm,
        matrix_multiply_rayon_eq_spec o (by omega) (by omega) hp2]
    · rw [avxRayonScheduled_eq_spec o (by omega) (by omega) hp2 hperm,
        matrix_multiply_avx_rayon_eq_spec o (by omega) (by omega) hp2]

/-- C9 witness: running the two rows of the scenario-1 input in reversed
order yields the same result as the kernels. -/
theorem C9_schedule_independent_witness :
    ([(1 : Int), 2, 3, 4, 5, 6].length = 2 * 3) ∧
    ([(7 : Int), 8, 9, 10, 11, 12].length = 3 * 2) ∧
    ([1, 0].Perm (List.range 2)) ∧
    (rayonScheduled intOps [1, 2, 3, 4, 5, 6] [7, 8, 9, 10, 11, 12] 2 3 2 [1, 0]
        = matrix_multiply_rayon intOps [1, 2, 3, 4, 5, 6] [7, 8, 9, 10, 11, 12] 2 3 2 ∧
     avxRayonScheduled intOps [1, 2, 3, 4, 5, 6] [7, 8, 9, 10, 11, 12] 2 3 2 [1, 0]
        = matrix_multiply_avx_rayon intOps [1, 2, 3, 4, 5, 6] [7, 8, 9, 10, 11, 12] 2 3 2) :=
  ⟨by decide, by decide, by decide,
    C9_schedule_independent intOps [1, 2, 3, 4, 5, 6] [7, 8, 9, 10, 11, 12] 2 3 2 [1, 0]
      (by decide) (by decide) (by decide)⟩

/-- C10: every kernel's output depends only on the first `m*n` elements of
`a` and the first `n*p` elements of `b`: two input pairs that agree on those
prefixes (for example when the supplied buffers are strictly longer than
`m*n` or `n*p`) produce identical results, because the kernels read only
`a[i*n+k]` with `i < m, k < n` and `b[k*p+j..]` with `k < n`,
`j + remaining ≤ p`. -/
theorem C10_prefix_dependence (o : Ops α) (a a2 b b2 : List α) (m n p : Nat)
    (ha : m * n ≤ a.length) (ha2 : m * n ≤ a2.length)
    (hb : n * p ≤ b.length) (hb2 : n * p ≤ b2.length)
    (ea : a.take (m * n) = a2.take (m * n)) (eb : b.take (n * p) = b2.take (n * p)) :
    matrix_multiply o a b m n p = matrix_multiply o a2 b2 m n p ∧
    matrix_multiply_rayon o a b m n p = matrix_multiply_rayon o a2 b2 m n p ∧
    matrix_multiply_avx o a b m n p = matrix_multiply_avx o a2 b2 m n p ∧
    matrix_multiply_avx_rayon o a b m n p = matrix_multiply_avx_rayon o a2 b2 m n p := by
  have hc := specMatMul_congr o ea eb
  refine ⟨?_, ?_, ?_, ?_⟩
  · rw [matrix_multiply_eq_spec o ha hb, matrix_multiply_eq_spec o ha2 hb2, hc]
  · rcases Nat.eq_zero_or_pos p with hp | hp
    · subst hp
      rfl
    · rw [matrix_multiply_rayon_eq_spec o ha hb (by omega),
        matrix_multiply_rayon_eq_spec o ha2 hb2 (by omega), hc]
  · rw [matrix_multiply_avx_eq_spec o ha hb, matrix_multiply_avx_eq_spec o ha2 hb2, hc]
  · rcases Nat.eq_zero_or_pos p with hp | hp
    · subst hp
      rfl
    · rw [matrix_multiply_avx_rayon_eq_spec o ha hb (by omega),
        matrix_multiply_avx_rayon_eq_spec o ha2 hb2 (by omega), hc]

/-- C10 witness: padding the scenario-1 buffers with extra junk elements
beyond `m*n` and `n*p` does not change any kernel's output. -/
theorem C10_prefix_dependence_witness :
    (2 * 3 ≤ [(1 : Int), 2, 3, 4, 5, 6, 99].length) ∧
    (2 * 3 ≤ [(1 : Int), 2, 3, 4, 5, 6].length) ∧
    (3 * 2 ≤ [(7 : Int), 8, 9, 10, 11, 12, 77, 78].length) ∧
    (3 * 2 ≤ [(7 : Int), 8, 9, 10, 11, 12].length) ∧
    ([(1 : Int), 2, 3, 4, 5, 6, 99].take (2 * 3) = [(1 : Int), 2, 3, 4, 5, 6].take (2 * 3)) ∧
    ([(7 : Int), 8, 9, 10, 11, 12, 77, 78].take (3 * 2)
      = [(7 : Int), 8, 9, 10, 11, 12].take (3 * 2)) ∧
    (matrix_multiply intOps [1, 2, 3, 4, 5, 6, 99] [7, 8, 9, 10, 11, 12, 77, 78] 2 3 2
        = matrix_multiply intOps [1, 2, 3, 4, 5, 6] [7, 8, 9, 10, 11, 12] 2 3 2 ∧
     matrix_multiply_rayon intOps [1, 2, 3, 4, 5, 6, 99] [7, 8, 9, 10, 11, 12, 77, 78] 2 3 2
        = matrix_multiply_rayon intOps [1, 2, 3, 4, 5, 6] [7, 8, 9, 10, 11, 12] 2 3 2 ∧
     matrix_multiply_avx intOps [1, 2, 3, 4, 5, 6, 99] [7, 8, 9, 10, 11, 12, 77, 78] 2 3 2
        = matrix_multiply_avx intOps [1, 2, 3, 4, 5, 6] [7, 8, 9, 10, 11, 12] 2 3 2 ∧
     matrix_multiply_avx_rayon intOps [1, 2, 3, 4, 5, 6, 99]
         [7, 8, 9, 10, 11, 12, 77, 78] 2 3 2
        = matrix_multiply_avx_rayon intOps [1, 2, 3, 4, 5, 6] [7, 8, 9, 10, 11, 12] 2 3 2) :=
  ⟨by decide, by decide, by decide, by decide, by decide, by decide,
    C10_prefix_dependence intOps [1, 2, 3, 4, 5, 6, 99] [1, 2, 3, 4, 5, 6]
      [7, 8, 9, 10, 11, 12, 77, 78] [7, 8, 9, 10, 11, 12] 2 3 2
      (by decide) (by decide) (by decide) (by decide) (by decide) (by decide)⟩
